import Mathlib

/-!
Verification of the SpaceNet Rio chip-classification data-prep pipeline
(notebook `SpaceNet - Rio - Chip Classification Data Prep.ipynb`).

The notebook's geometric primitives (shapely's `intersects`, `intersection`,
`area`) are external collaborators; the embedding is therefore polymorphic in
the geometry type `Geom` and takes the primitive operations as function
arguments.  Areas and coverage fractions are modelled with exact rationals
(`ℚ`), reading the algorithm's arithmetic mathematically.
-/

namespace SpaceNetPrep

/-- A JSON property value: the notebook stores the integer `1` and the
string `"building"` into feature property maps. -/
inductive PropVal where
  | int (n : ℤ)
  | str (s : String)
deriving DecidableEq, Repr

/-- A GeoJSON feature: a geometry plus a property map.  Python's property
dict is modelled as an insertion-ordered association list. -/
structure Feature (Geom : Type) where
  geometry : Geom
  properties : List (String × PropVal)
deriving DecidableEq, Repr

/-- The parsed label file `label_js`: a `crs` field and a feature list. -/
structure LabelJs (Geom : Type) where
  crs : String
  features : List (Feature Geom)
deriving DecidableEq, Repr

/-- A per-scene output collection `fc` built in the notebook:
`fc['type'] = 'FeatureCollection'; fc['crs'] = label_js['crs'];
fc['features'] = image_to_features[img]`. -/
structure FeatureCollection (Geom : Type) where
  type : String
  crs : String
  features : List (Feature Geom)
deriving DecidableEq, Repr

/-- Python dict assignment `d[k] = v` on an insertion-ordered association
list: overwrite the key in place if present, otherwise append at the end. -/
def setProp : List (String × PropVal) → String → PropVal →
    List (String × PropVal)
  | [], k, v => [(k, v)]
  | p :: ps, k, v =>
    if p.1 = k then (k, v) :: ps else p :: setProp ps k v

/-- Python dict lookup `d[k]`: the first binding of `k`, if any. -/
def getProp : List (String × PropVal) → String → Option PropVal
  | [], _ => none
  | p :: ps, k => if p.1 = k then some p.2 else getProp ps k

/-- The injection loop over `label_js['features']`:
`feature['properties']['class_id'] = 1;
feature['properties']['class_name'] = 'building'`. -/
def injectFeature {Geom : Type} (f : Feature Geom) : Feature Geom :=
  { f with
    properties := setProp (setProp f.properties "class_id" (PropVal.int 1))
      "class_name" (PropVal.str "building") }

/-- The injection applied to the whole raw feature list (cell 17 of the
notebook), before any per-scene work. -/
def injectClass {Geom : Type} (fs : List (Feature Geom)) : List (Feature Geom) :=
  fs.map injectFeature

/-- Cell 13: `intersecting_images` keeps, in input order, the images whose
extent polygon intersects the AOI.  `intersects` is shapely's predicate,
passed in as an external primitive. -/
def intersecting_images {Geom Img : Type} (intersects : Geom → Geom → Bool)
    (extents : Img → Geom) (aoi : Geom) (image_files : List Img) : List Img :=
  image_files.filter (fun img => intersects (extents img) aoi)

/-- Cell 18: `image_to_features` maps each intersecting image to the list of
label features whose geometry intersects the image's extent. -/
def image_to_features {Geom Img : Type} (intersects : Geom → Geom → Bool)
    (extents : Img → Geom) (labels : List (Feature Geom)) (imgs : List Img) :
    List (Img × List (Feature Geom)) :=
  imgs.map (fun img =>
    (img, labels.filter (fun f => intersects f.geometry (extents img))))

/-- Cell 19: one output collection per entry of `image_to_features`, carrying
the original label file's `crs`.  The raw features are class-injected first
(cell 17 runs before cell 18). -/
def perSceneFC {Geom Img : Type} (intersects : Geom → Geom → Bool)
    (extents : Img → Geom) (js : LabelJs Geom) (imgs : List Img) :
    List (Img × FeatureCollection Geom) :=
  (image_to_features intersects extents (injectClass js.features) imgs).map
    (fun p => (p.1, ⟨"FeatureCollection", js.crs, p.2⟩))

/-- One step of the stable descending insertion used to model Python's
`sorted(..., reverse=True, key=cov)`: `x` is placed before the first `y`
with `cov y ≤ cov x`, so an element inserted later (which came earlier in
the input, see `sortDesc`) lands ahead of equal-key ones. -/
def insertDesc {Img : Type} (cov : Img → ℚ) (x : Img) : List Img → List Img
  | [] => [x]
  | y :: ys => if cov y ≤ cov x then x :: y :: ys else y :: insertDesc cov x ys

/-- Python's `sorted(l, reverse=True, key=cov)`: a stable sort, descending
by `cov`; elements with equal keys keep their input order. -/
def sortDesc {Img : Type} (cov : Img → ℚ) : List Img → List Img
  | [] => []
  | x :: xs => insertDesc cov x (sortDesc cov xs)

/-- The mutable state of the split loop in cell 23: `train_imgs`, `val_imgs`
and `train_area_covered`. -/
structure SplitState (Img : Type) where
  train : List Img
  val : List Img
  accum : ℚ
deriving DecidableEq, Repr

/-- One iteration of the loop in cell 23:
`if train_area_covered < ratio: train_imgs.append(img);
train_area_covered += images_to_area[img] else: val_imgs.append(img)`. -/
def splitStep {Img : Type} (cov : Img → ℚ) (r : ℚ) (st : SplitState Img)
    (img : Img) : SplitState Img :=
  if st.accum < r then ⟨st.train ++ [img], st.val, st.accum + cov img⟩
  else ⟨st.train, st.val ++ [img], st.accum⟩

/-- The split planner of cell 23: iterate the loop body over the images
sorted descending by coverage, starting from empty lists and accumulator 0. -/
def splitPlanner {Img : Type} (cov : Img → ℚ) (r : ℚ) (scenes : List Img) :
    SplitState Img :=
  (sortDesc cov scenes).foldl (splitStep cov r) ⟨[], [], 0⟩

/-- Modelled from the spec: the greedy walk of §4.3 step 3, written as the
spec words it — walk the sorted sequence with `accumulated` starting at the
given value; if `accumulated < r` assign to training and add the scene's
coverage, else assign to validation.  Returns (training, validation, final
accumulated). -/
def specWalk {Img : Type} (cov : Img → ℚ) (r : ℚ) :
    List Img → ℚ → List Img × List Img × ℚ
  | [], a => ([], [], a)
  | x :: xs, a =>
    if a < r then
      let p := specWalk cov r xs (a + cov x)
      (x :: p.1, p.2.1, p.2.2)
    else
      let p := specWalk cov r xs a
      (p.1, x :: p.2.1, p.2.2)

/-- Python's `os.path.basename`: the part after the last `/`. -/
def basename (p : String) : String := (p.splitOn "/").getLastD p

/-- The stem part of `os.path.splitext`: drop the extension at the last dot,
except when every character before that dot is itself a dot (then there is
no extension). -/
def splitextStem (name : String) : String :=
  let cs := name.data
  match ((List.range cs.length).filter (fun i => cs.getD i ' ' = '.')).getLast? with
  | none => name
  | some i => if (cs.take i).all (fun c => c = '.') then name else ⟨cs.take i⟩

/-- Python's `os.path.join(a, b)` for POSIX paths as the notebook uses it. -/
def joinPath (a b : String) : String :=
  if b.startsWith "/" then b
  else if a = "" ∨ a.endsWith "/" then a ++ b
  else a ++ "/" ++ b

/-- Cells 24/25: one CSV row per image:
`'"{img}","{labels_path}"'` with
`labels_path = os.path.join(target_label_pref, basename + '.geojson')`. -/
def csvRows (pref : String) (imgs : List String) : List String :=
  imgs.map (fun img =>
    "\"" ++ img ++ "\",\"" ++
      joinPath pref (splitextStem (basename img) ++ ".geojson") ++ "\"")

/-- The manifest file content written by cells 24/25: `'\n'.join(csv_rows)`.
The notebook writes this unconditionally — there is no error path. -/
def manifestContent (pref : String) (imgs : List String) : String :=
  String.intercalate "\n" (csvRows pref imgs)

/-- The scene-selection and split stage end to end (cells 13, 23, 24, 25):
filter the images intersecting the AOI, compute coverage fractions from the
externally supplied intersection areas, run the greedy split, and render both
manifest contents.  Returns (training manifest, validation manifest). -/
def trainValManifests {Geom : Type} (pref : String)
    (intersects : Geom → Geom → Bool) (extents : String → Geom) (aoi : Geom)
    (interArea : String → ℚ) (aoiArea : ℚ) (r : ℚ)
    (image_files : List String) : String × String :=
  let inter := intersecting_images intersects extents aoi image_files
  let cov := fun img => interArea img / aoiArea
  let st := splitPlanner cov r inter
  (manifestContent pref st.train, manifestContent pref st.val)

/-! ### Lemmas about the greedy split -/

/-- The imperative loop of cell 23 computes exactly the spec's walk: folding
`splitStep` from a state appends the walk's two output lists to the state's
lists and ends at the walk's final accumulator. -/
lemma foldl_splitStep_eq {Img : Type} (cov : Img → ℚ) (r : ℚ) :
    ∀ (l : List Img) (st : SplitState Img),
      l.foldl (splitStep cov r) st =
        ⟨st.train ++ (specWalk cov r l st.accum).1,
         st.val ++ (specWalk cov r l st.accum).2.1,
         (specWalk cov r l st.accum).2.2⟩ := by
  intro l
  induction l with
  | nil => intro st; simp [specWalk]
  | cons x xs ih =>
    intro st
    by_cases h : st.accum < r
    · simp only [List.foldl_cons, splitStep, h, if_true, ih, specWalk,
        List.append_assoc, List.singleton_append]
    · simp only [List.foldl_cons, splitStep, h, if_false, ih, specWalk,
        List.append_assoc, List.singleton_append]

/-- The walk's two outputs together are a permutation of its input. -/
lemma specWalk_perm {Img : Type} (cov : Img → ℚ) (r : ℚ) :
    ∀ (l : List Img) (a : ℚ),
      ((specWalk cov r l a).1 ++ (specWalk cov r l a).2.1).Perm l := by
  intro l
  induction l with
  | nil => intro a; simp [specWalk]
  | cons x xs ih =>
    intro a
    by_cases h : a < r
    · simpa [specWalk, h] using (ih (a + cov x)).cons x
    · simp only [specWalk, h, if_false]
      exact List.perm_middle.trans ((ih a).cons x)

/-- When every coverage is nonnegative and the accumulator plus the whole
remaining coverage stays below `r`, the walk sends everything to training. -/
lemma specWalk_all_train {Img : Type} (cov : Img → ℚ) (r : ℚ) :
    ∀ (l : List Img) (a : ℚ), (∀ x ∈ l, 0 ≤ cov x) →
      a + (l.map cov).sum < r →
      specWalk cov r l a = (l, [], a + (l.map cov).sum) := by
  intro l
  induction l with
  | nil => intro a _ _; simp [specWalk]
  | cons x xs ih =>
    intro a h0 hsum
    have hx : 0 ≤ cov x := h0 x (List.mem_cons_self x xs)
    have hxs : 0 ≤ (xs.map cov).sum := by
      apply List.sum_nonneg
      intro q hq
      obtain ⟨y, hy, rfl⟩ := List.mem_map.mp hq
      exact h0 y (List.mem_cons_of_mem x hy)
    have ha : a < r := by
      have : a ≤ a + ((x :: xs).map cov).sum := by
        simp only [List.map_cons, List.sum_cons]
        nlinarith
      linarith
    have hrec : (a + cov x) + (xs.map cov).sum < r := by
      simp only [List.map_cons, List.sum_cons] at hsum
      linarith
    have := ih (a + cov x) (fun y hy => h0 y (List.mem_cons_of_mem x hy)) hrec
    simp [specWalk, ha, this, add_assoc]

/-- Once the accumulator has reached `r`, the walk sends everything to
validation and never changes the accumulator again. -/
lemma specWalk_all_val {Img : Type} (cov : Img → ℚ) (r : ℚ) :
    ∀ (l : List Img) (a : ℚ), ¬ a < r → specWalk cov r l a = ([], l, a) := by
  intro l
  induction l with
  | nil => intro a _; simp [specWalk]
  | cons x xs ih => intro a h; simp [specWalk, h, ih a h]

/-! ### Lemmas about the stable descending sort -/

/-- Inserting is a permutation-respecting operation. -/
lemma insertDesc_perm {Img : Type} (cov : Img → ℚ) (x : Img) :
    ∀ l : List Img, (insertDesc cov x l).Perm (x :: l) := by
  intro l
  induction l with
  | nil => simp [insertDesc]
  | cons y ys ih =>
    by_cases h : cov y ≤ cov x
    · simp [insertDesc, h]
    · simp only [insertDesc, h, if_false]
      exact (ih.cons y).trans (List.Perm.swap x y ys)

/-- The sort permutes its input. -/
lemma sortDesc_perm {Img : Type} (cov : Img → ℚ) :
    ∀ l : List Img, (sortDesc cov l).Perm l := by
  intro l
  induction l with
  | nil => simp [sortDesc]
  | cons x xs ih => exact (insertDesc_perm cov x _).trans (ih.cons x)

/-- Inserting preserves the descending-pairwise property. -/
lemma insertDesc_pairwise {Img : Type} (cov : Img → ℚ) (x : Img) :
    ∀ l : List Img, l.Pairwise (fun a b => cov b ≤ cov a) →
      (insertDesc cov x l).Pairwise (fun a b => cov b ≤ cov a) := by
  intro l
  induction l with
  | nil => intro _; simp [insertDesc]
  | cons y ys ih =>
    intro h
    by_cases hc : cov y ≤ cov x
    · simp only [insertDesc, hc, if_true]
      refine List.Pairwise.cons ?_ h
      intro z hz
      rcases List.mem_cons.mp hz with rfl | hz
      · exact hc
      · exact le_trans (List.rel_of_pairwise_cons h hz) hc
    · simp only [insertDesc, hc, if_false]
      refine List.Pairwise.cons ?_ (ih h.tail)
      intro z hz
      have hz' := (insertDesc_perm cov x ys).mem_iff.mp hz
      rcases List.mem_cons.mp hz' with rfl | hz'
      · exact le_of_lt (lt_of_not_le hc)
      · exact List.rel_of_pairwise_cons h hz'

/-- The sort's output is descending in the coverage key. -/
lemma sortDesc_pairwise {Img : Type} (cov : Img → ℚ) :
    ∀ l : List Img, (sortDesc cov l).Pairwise (fun a b => cov b ≤ cov a) := by
  intro l
  induction l with
  | nil => simp [sortDesc]
  | cons x xs ih => exact insertDesc_pairwise cov x _ ih

/-- When the new element's key dominates, insertion just conses. -/
lemma insertDesc_eq_cons {Img : Type} (cov : Img → ℚ) (x : Img)
    (l : List Img) (h : ∀ y ∈ l, cov y ≤ cov x) :
    insertDesc cov x l = x :: l := by
  cases l with
  | nil => rfl
  | cons y ys => simp [insertDesc, h y (List.mem_cons_self y ys)]

/-- Stability on ties: a list whose keys are all equal is left untouched by
the sort (elements with equal coverage keep their input order). -/
lemma sortDesc_eq_self_of_const {Img : Type} (cov : Img → ℚ) :
    ∀ l : List Img, (∀ x ∈ l, ∀ y ∈ l, cov x = cov y) → sortDesc cov l = l := by
  intro l
  induction l with
  | nil => intro _; rfl
  | cons x xs ih =>
    intro h
    have hxs : sortDesc cov xs = xs :=
      ih (fun a ha b hb =>
        h a (List.mem_cons_of_mem x ha) b (List.mem_cons_of_mem x hb))
    show insertDesc cov x (sortDesc cov xs) = x :: xs
    rw [hxs]
    apply insertDesc_eq_cons
    intro y hy
    exact le_of_eq (h y (List.mem_cons_of_mem x hy) x (List.mem_cons_self x xs))

/-! ### Lemmas about property maps -/

/-- Setting a key and then reading it back gives the value just written. -/
lemma getProp_setProp_self :
    ∀ (ps : List (String × PropVal)) (k : String) (v : PropVal),
      getProp (setProp ps k v) k = some v := by
  intro ps
  induction ps with
  | nil => intro k v; simp [setProp, getProp]
  | cons p ps ih =>
    intro k v
    by_cases hp : p.1 = k
    · simp [setProp, getProp, hp]
    · simp [setProp, getProp, hp, ih k v]

/-- Setting one key does not change the lookup of a different key. -/
lemma getProp_setProp_other {k k' : String} (hk : k' ≠ k) (v : PropVal) :
    ∀ ps : List (String × PropVal),
      getProp (setProp ps k v) k' = getProp ps k' := by
  have hk' : ¬ k = k' := fun h => hk h.symm
  intro ps
  induction ps with
  | nil => simp [setProp, getProp, hk']
  | cons p ps ih =>
    by_cases hp : p.1 = k
    · have hp' : ¬ p.1 = k' := by
        rw [hp]
        exact hk'
      simp [setProp, getProp, hp, hp', hk']
    · by_cases hq : p.1 = k'
      · simp [setProp, getProp, hp, hq, hk]
      · simp [setProp, getProp, hp, hq, ih]

/-- Each feature that went through the class injection reads back
`class_id = 1` and `class_name = "building"`. -/
lemma injectFeature_props {Geom : Type} (f : Feature Geom) :
    getProp (injectFeature f).properties "class_id" = some (PropVal.int 1) ∧
      getProp (injectFeature f).properties "class_name" =
        some (PropVal.str "building") := by
  constructor
  · show getProp (setProp (setProp f.properties "class_id" (PropVal.int 1))
      "class_name" (PropVal.str "building")) "class_id" = some (PropVal.int 1)
    rw [getProp_setProp_other (by decide) _ _]
    exact getProp_setProp_self _ _ _
  · exact getProp_setProp_self _ _ _

/-- A filter whose predicate rejects every element yields the empty list. -/
lemma filter_eq_nil_of_false {α : Type} (q : α → Bool) :
    ∀ l : List α, (∀ x ∈ l, q x = false) → l.filter q = [] := by
  intro l
  induction l with
  | nil => intro _; rfl
  | cons x xs ih =>
    intro h
    have hx := h x (List.mem_cons_self x xs)
    simp [List.filter_cons, hx, ih fun y hy => h y (List.mem_cons_of_mem x hy)]

/-- Coverage fractions of the three-scene example of spec §8 (scenes A, B, C
covering 0.5, 0.3 and 0.2 of the region). -/
def covExample : String → ℚ :=
  fun s => if s = "A" then 1/2 else if s = "B" then 3/10 else 1/5

/-! ### The claims -/

/-- C1: the split planner's greedy walk over the scenes sorted descending by
coverage keeps an accumulator starting at 0 and, at each scene, assigns it to
training (adding its coverage) when the accumulator before the scene is
strictly below `r`, and to validation otherwise; on scenes A, B, C with
coverages 1/2, 3/10, 1/5 and `r = 4/5`, training is [A, B] and validation is
[C]. -/
theorem c1_greedy_walk :
    (∀ (Img : Type) (cov : Img → ℚ) (r : ℚ) (scenes : List Img),
        ((splitPlanner cov r scenes).train, (splitPlanner cov r scenes).val) =
          ((specWalk cov r (sortDesc cov scenes) 0).1,
           (specWalk cov r (sortDesc cov scenes) 0).2.1)) ∧
    (splitPlanner covExample (4/5) ["A", "B", "C"]).train = ["A", "B"] ∧
    (splitPlanner covExample (4/5) ["A", "B", "C"]).val = ["C"] := by
  refine ⟨fun Img cov r scenes => ?_, ?_, ?_⟩
  · rw [splitPlanner, foldl_splitStep_eq]
    simp
  · norm_num +decide [splitPlanner, sortDesc, insertDesc, splitStep,
      covExample, List.foldl]
  · norm_num +decide [splitPlanner, sortDesc, insertDesc, splitStep,
      covExample, List.foldl]

/-- C3: for every coverage assignment, ratio and intersecting-scene list, the
two groups produced by the split planner form an exact partition: their
concatenation is a permutation of the input and their sizes add up to the
input's size. -/
theorem c3_partition {Img : Type} (cov : Img → ℚ) (r : ℚ)
    (scenes : List Img) :
    ((splitPlanner cov r scenes).train ++
        (splitPlanner cov r scenes).val).Perm scenes ∧
    (splitPlanner cov r scenes).train.length +
        (splitPlanner cov r scenes).val.length = scenes.length := by
  have hperm : ((splitPlanner cov r scenes).train ++
      (splitPlanner cov r scenes).val).Perm scenes := by
    rw [splitPlanner, foldl_splitStep_eq]
    simpa using (specWalk_perm cov r (sortDesc cov scenes) 0).trans
      (sortDesc_perm cov scenes)
  refine ⟨hperm, ?_⟩
  have := hperm.length_eq
  simpa [List.length_append] using this

/-- C6: when all coverages are nonnegative and their total stays strictly
below the ratio, every scene lands in training (in sorted order) and the
validation group is empty. -/
theorem c6_under_ratio {Img : Type} (cov : Img → ℚ) (r : ℚ)
    (scenes : List Img) (_hne : scenes ≠ [])
    (h0 : ∀ x ∈ scenes, 0 ≤ cov x) (hsum : (scenes.map cov).sum < r) :
    (splitPlanner cov r scenes).train = sortDesc cov scenes ∧
    (splitPlanner cov r scenes).val = [] := by
  have hmem : ∀ x ∈ sortDesc cov scenes, 0 ≤ cov x := fun x hx =>
    h0 x ((sortDesc_perm cov scenes).mem_iff.mp hx)
  have hsum' : (0:ℚ) + ((sortDesc cov scenes).map cov).sum < r := by
    have : ((sortDesc cov scenes).map cov).Perm (scenes.map cov) :=
      (sortDesc_perm cov scenes).map cov
    rw [zero_add, this.sum_eq]
    exact hsum
  have hwalk := specWalk_all_train cov r (sortDesc cov scenes) 0 hmem hsum'
  rw [splitPlanner, foldl_splitStep_eq]
  simp [hwalk]

/-- C6 witness: three scenes of coverage 1/10 each against ratio 4/5 all go
to training and validation is empty. -/
theorem c6_witness :
    (["a", "b", "c"] ≠ ([] : List String)) ∧
    (∀ x ∈ ["a", "b", "c"], (0:ℚ) ≤ (fun _ : String => (1:ℚ)/10) x) ∧
    ((["a", "b", "c"].map (fun _ : String => (1:ℚ)/10)).sum < 4/5) ∧
    (splitPlanner (fun _ : String => (1:ℚ)/10) (4/5) ["a", "b", "c"]).train =
      sortDesc (fun _ : String => (1:ℚ)/10) ["a", "b", "c"] ∧
    (splitPlanner (fun _ : String => (1:ℚ)/10) (4/5) ["a", "b", "c"]).val = [] := by
  refine ⟨by decide, by norm_num, by norm_num, ?_, ?_⟩
  · exact (c6_under_ratio (fun _ => (1:ℚ)/10) (4/5) ["a", "b", "c"] (by decide)
      (by norm_num) (by norm_num)).1
  · exact (c6_under_ratio (fun _ => (1:ℚ)/10) (4/5) ["a", "b", "c"] (by decide)
      (by norm_num) (by norm_num)).2

/-- C7: with a positive ratio, if the first scene of the sorted order already
covers at least the ratio, training is exactly that scene and validation is
all the remaining scenes, in sorted order. -/
theorem c7_dominant_first {Img : Type} (cov : Img → ℚ) (r : ℚ)
    (scenes : List Img) (s : Img) (rest : List Img)
    (hsort : sortDesc cov scenes = s :: rest) (hr : 0 < r)
    (hs : r ≤ cov s) :
    (splitPlanner cov r scenes).train = [s] ∧
    (splitPlanner cov r scenes).val = rest := by
  have hnot : ¬ cov s < r := not_lt.mpr hs
  have hrest := specWalk_all_val cov r rest (cov s) hnot
  rw [splitPlanner, foldl_splitStep_eq, hsort]
  simp [specWalk, hr, zero_add, hrest]

/-- C7 witness: a single candidate scene of coverage 1 against ratio 4/5
yields training = [that scene] and empty validation. -/
theorem c7_witness :
    (sortDesc (fun _ : String => (1:ℚ)) ["X"] = ["X"]) ∧
    ((0:ℚ) < 4/5) ∧ ((4:ℚ)/5 ≤ 1) ∧
    (splitPlanner (fun _ : String => (1:ℚ)) (4/5) ["X"]).train = ["X"] ∧
    (splitPlanner (fun _ : String => (1:ℚ)) (4/5) ["X"]).val = [] := by
  refine ⟨by simp [sortDesc, insertDesc], by norm_num, by norm_num, ?_, ?_⟩
  · exact (c7_dominant_first (fun _ => (1:ℚ)) (4/5) ["X"] "X" []
      (by simp [sortDesc, insertDesc]) (by norm_num) (by norm_num)).1
  · exact (c7_dominant_first (fun _ => (1:ℚ)) (4/5) ["X"] "X" []
      (by simp [sortDesc, insertDesc]) (by norm_num) (by norm_num)).2

/-- C5 counterexample: two scenes with equal coverage are kept in input order
by the sort — with input ["b", "a"] the sorted result is ["b", "a"], not the
ascending-identifier order ["a", "b"] the claim requires. -/
theorem c5_counterexample :
    sortDesc (fun _ : String => (1:ℚ)/2) ["b", "a"] = ["b", "a"] ∧
    sortDesc (fun _ : String => (1:ℚ)/2) ["b", "a"] ≠ ["a", "b"] ∧
    (splitPlanner (fun _ : String => (1:ℚ)/2) 1 ["b", "a"]).train =
      ["b", "a"] := by
  have hsort : sortDesc (fun _ : String => (1:ℚ)/2) ["b", "a"] = ["b", "a"] := by
    norm_num [sortDesc, insertDesc]
  refine ⟨hsort, by rw [hsort]; decide, ?_⟩
  rw [splitPlanner, hsort]
  norm_num +decide [splitStep, List.foldl]

/-- Inserting an element whose key is `c` places it ahead of every kept
element of key `c`: the walk of `insertDesc` only passes elements with a
strictly larger key, which the key-`c` filter drops. -/
lemma insertDesc_filter_eq_cons {Img : Type} (cov : Img → ℚ) (x : Img)
    (c : ℚ) (hx : cov x = c) :
    ∀ s : List Img,
      (insertDesc cov x s).filter (fun y => decide (cov y = c)) =
        x :: s.filter (fun y => decide (cov y = c)) := by
  intro s
  induction s with
  | nil => simp [insertDesc, hx]
  | cons y ys ih =>
    by_cases hc : cov y ≤ cov x
    · simp only [insertDesc, if_pos hc]
      simp [hx]
    · have hy : ¬ cov y = c := by
        intro h
        exact hc (le_of_eq (h.trans hx.symm))
      simp [insertDesc, hc, hy, ih]

/-- Inserting an element whose key is not `c` leaves the key-`c` filter of
the list unchanged: the insertion only splices the new element in, keeping
the relative order of all old elements. -/
lemma insertDesc_filter_eq {Img : Type} (cov : Img → ℚ) (x : Img) (c : ℚ)
    (hx : ¬ cov x = c) :
    ∀ s : List Img,
      (insertDesc cov x s).filter (fun y => decide (cov y = c)) =
        s.filter (fun y => decide (cov y = c)) := by
  intro s
  induction s with
  | nil => simp [insertDesc, hx]
  | cons y ys ih =>
    by_cases hc : cov y ≤ cov x
    · simp [insertDesc, hc, hx]
    · simp only [insertDesc, if_neg hc]
      simp [List.filter_cons, ih]

/-- Full stability of the sort: for every coverage value `c`, the
subsequence of elements with coverage `c` is the same before and after
sorting — tied elements keep their input order. -/
lemma sortDesc_filter_eq {Img : Type} (cov : Img → ℚ) (c : ℚ) :
    ∀ l : List Img,
      (sortDesc cov l).filter (fun y => decide (cov y = c)) =
        l.filter (fun y => decide (cov y = c)) := by
  intro l
  induction l with
  | nil => rfl
  | cons x xs ih =>
    by_cases hx : cov x = c
    · show (insertDesc cov x (sortDesc cov xs)).filter _ = _
      rw [insertDesc_filter_eq_cons cov x c hx, ih]
      simp [hx]
    · show (insertDesc cov x (sortDesc cov xs)).filter _ = _
      rw [insertDesc_filter_eq cov x c hx, ih]
      simp [hx]

/-- C5 (amended): the split planner sorts the scenes descending by coverage
fraction, and whenever two scenes have equal coverage their tie is broken
deterministically by keeping the input order (a stable sort): the output is
a permutation of the input, pairwise descending, and for every coverage
value the subsequence of scenes carrying exactly that coverage is identical
before and after sorting. -/
theorem c5_sort_stable {Img : Type} (cov : Img → ℚ) (scenes : List Img) :
    (sortDesc cov scenes).Pairwise (fun a b => cov b ≤ cov a) ∧
    (sortDesc cov scenes).Perm scenes ∧
    (∀ c : ℚ, (sortDesc cov scenes).filter (fun y => decide (cov y = c)) =
      scenes.filter (fun y => decide (cov y = c))) := by
  exact ⟨sortDesc_pairwise cov scenes, sortDesc_perm cov scenes,
    fun c => sortDesc_filter_eq cov c scenes⟩

/-- Coverage fractions of a mixed list: scene "x" covers 1/2, every other
scene 3/10, so "b" and "a" are tied below a strictly larger scene. -/
def covMixed : String → ℚ := fun s => if s = "x" then 1/2 else 3/10

/-- C5 witness: on a mixed list where "b" and "a" tie at coverage 3/10
under the dominant scene "x", the tied pair's subsequence is kept in input
order by the sort. -/
theorem c5_witness :
    (sortDesc covMixed ["x", "b", "a"]).filter
        (fun y => decide (covMixed y = 3/10)) =
      ["x", "b", "a"].filter (fun y => decide (covMixed y = 3/10)) :=
  (c5_sort_stable covMixed ["x", "b", "a"]).2.2 (3/10)

/-- C2: a label feature appears in a scene's output list exactly when its
geometry intersects the scene's extent; a feature intersecting several
scenes' extents therefore appears in each of their lists. -/
theorem c2_feature_iff_intersects {Geom Img : Type}
    (intersects : Geom → Geom → Bool) (extents : Img → Geom)
    (labels : List (Feature Geom)) (imgs : List Img)
    (p : Img × List (Feature Geom))
    (hp : p ∈ image_to_features intersects extents labels imgs)
    (f : Feature Geom) (hf : f ∈ labels) :
    f ∈ p.2 ↔ intersects f.geometry (extents p.1) = true := by
  obtain ⟨img, himg, rfl⟩ := List.mem_map.mp hp
  simp [List.mem_filter, hf]

/-- C2 witness: one feature at geometry 0, one scene with extent 5, with an
order predicate as the intersection test: the feature is listed for the
scene exactly because 0 ≤ 5. -/
theorem c2_witness :
    (((5:ℤ), [(⟨0, []⟩ : Feature ℤ)]) ∈
        image_to_features (fun a b : ℤ => decide (a ≤ b)) (fun i : ℤ => i)
          [(⟨0, []⟩ : Feature ℤ)] [(5:ℤ)]) ∧
    ((⟨0, []⟩ : Feature ℤ) ∈ [(⟨0, []⟩ : Feature ℤ)]) ∧
    ((⟨0, []⟩ : Feature ℤ) ∈ [(⟨0, []⟩ : Feature ℤ)] ↔
      decide ((0:ℤ) ≤ 5) = true) :=
  ⟨by decide, by decide,
    c2_feature_iff_intersects (fun a b : ℤ => decide (a ≤ b)) (fun i : ℤ => i)
      [⟨0, []⟩] [(5:ℤ)] (5, [⟨0, []⟩]) (by decide) ⟨0, []⟩ (by decide)⟩

/-- C8: every feature of every per-scene output list carries the injected
properties `class_id = 1` and `class_name = "building"`: they were written
once into the whole collection before partitioning, and the per-scene
filtering copies features unchanged. -/
theorem c8_class_props {Geom Img : Type} (intersects : Geom → Geom → Bool)
    (extents : Img → Geom) (labels : List (Feature Geom)) (imgs : List Img)
    (p : Img × List (Feature Geom))
    (hp : p ∈ image_to_features intersects extents (injectClass labels) imgs)
    (f : Feature Geom) (hf : f ∈ p.2) :
    getProp f.properties "class_id" = some (PropVal.int 1) ∧
    getProp f.properties "class_name" = some (PropVal.str "building") := by
  obtain ⟨img, himg, rfl⟩ := List.mem_map.mp hp
  have hf' : f ∈ injectClass labels := (List.mem_filter.mp hf).1
  obtain ⟨g, hg, rfl⟩ := List.mem_map.mp hf'
  exact injectFeature_props g

/-- An always-true intersection test, used by concrete witnesses. -/
def intersectsEx : ℤ → ℤ → Bool := fun _ _ => true

/-- The identity extent map on integer geometries, used by witnesses. -/
def extentsEx : ℤ → ℤ := fun i => i

/-- A concrete raw feature used by witnesses. -/
def fEx : Feature ℤ := ⟨3, []⟩

/-- A concrete label file used by witnesses. -/
def jsEx : LabelJs ℤ := ⟨"crs84", [fEx]⟩

/-- C8 witness: for a one-feature, one-scene instance, the scene's output
feature reads back `class_id = 1` and `class_name = "building"`. -/
theorem c8_witness :
    (((7:ℤ), injectClass [fEx]) ∈
        image_to_features intersectsEx extentsEx (injectClass [fEx]) [(7:ℤ)]) ∧
    (injectFeature fEx ∈ injectClass [fEx]) ∧
    (getProp (injectFeature fEx).properties "class_id" =
        some (PropVal.int 1) ∧
      getProp (injectFeature fEx).properties "class_name" =
        some (PropVal.str "building")) :=
  ⟨by decide, by decide,
    c8_class_props intersectsEx extentsEx [fEx] [(7:ℤ)]
      (7, injectClass [fEx]) (by decide) (injectFeature fEx) (by decide)⟩

/-- C9: each per-scene output is a feature collection whose `type` is
"FeatureCollection" and whose `crs` is the label file's unchanged; each of
its features is an original feature with its geometry unmodified, differing
only by the pre-injected class properties; and a feature intersecting a
second scene's extent also appears, identical, in that scene's collection. -/
theorem c9_output_collections {Geom Img : Type}
    (intersects : Geom → Geom → Bool) (extents : Img → Geom)
    (js : LabelJs Geom) (imgs : List Img) (p : Img × FeatureCollection Geom)
    (hp : p ∈ perSceneFC intersects extents js imgs) :
    p.2.type = "FeatureCollection" ∧ p.2.crs = js.crs ∧
    (∀ f ∈ p.2.features, ∃ g ∈ js.features,
        f = injectFeature g ∧ f.geometry = g.geometry) ∧
    (∀ q ∈ perSceneFC intersects extents js imgs, ∀ f ∈ p.2.features,
        intersects f.geometry (extents q.1) = true → f ∈ q.2.features) := by
  obtain ⟨pr, hpr, rfl⟩ := List.mem_map.mp hp
  obtain ⟨img, himg, rfl⟩ := List.mem_map.mp hpr
  refine ⟨rfl, rfl, ?_, ?_⟩
  · intro f hf
    have hf' : f ∈ injectClass js.features := (List.mem_filter.mp hf).1
    obtain ⟨g, hg, rfl⟩ := List.mem_map.mp hf'
    exact ⟨g, hg, rfl, rfl⟩
  · intro q hq f hf hint
    obtain ⟨qr, hqr, rfl⟩ := List.mem_map.mp hq
    obtain ⟨qimg, hqimg, rfl⟩ := List.mem_map.mp hqr
    have hf' : f ∈ injectClass js.features := (List.mem_filter.mp hf).1
    exact List.mem_filter.mpr ⟨hf', hint⟩

/-- C9 witness: a one-feature, one-scene instance where the output
collection's shape, crs and features are checked concretely. -/
theorem c9_witness :
    (((1:ℤ), (⟨"FeatureCollection", "crs84", injectClass [fEx]⟩ :
        FeatureCollection ℤ)) ∈ perSceneFC intersectsEx extentsEx jsEx [1]) ∧
    ((⟨"FeatureCollection", "crs84", injectClass [fEx]⟩ :
        FeatureCollection ℤ).type = "FeatureCollection" ∧
      (⟨"FeatureCollection", "crs84", injectClass [fEx]⟩ :
        FeatureCollection ℤ).crs = jsEx.crs ∧
      (∀ f ∈ (⟨"FeatureCollection", "crs84", injectClass [fEx]⟩ :
          FeatureCollection ℤ).features, ∃ g ∈ jsEx.features,
          f = injectFeature g ∧ f.geometry = g.geometry) ∧
      (∀ q ∈ perSceneFC intersectsEx extentsEx jsEx [1],
        ∀ f ∈ (⟨"FeatureCollection", "crs84", injectClass [fEx]⟩ :
            FeatureCollection ℤ).features,
          intersectsEx f.geometry (extentsEx q.1) = true →
            f ∈ q.2.features)) :=
  ⟨by decide,
    c9_output_collections intersectsEx extentsEx jsEx [1]
      (1, ⟨"FeatureCollection", "crs84", injectClass [fEx]⟩) (by decide)⟩

/-- C10: the per-scene outputs are in one-to-one correspondence with the
intersecting scenes — the emitted list of (scene, collection) pairs carries
exactly the scene list — and a scene none of whose features intersect still
gets a collection, with an empty features list, rather than being skipped. -/
theorem c10_file_per_scene {Geom Img : Type}
    (intersects : Geom → Geom → Bool) (extents : Img → Geom)
    (js : LabelJs Geom) (imgs : List Img) :
    (perSceneFC intersects extents js imgs).map Prod.fst = imgs ∧
    (∀ p ∈ perSceneFC intersects extents js imgs,
        (∀ f ∈ injectClass js.features,
            intersects f.geometry (extents p.1) = false) →
        p.2.features = []) := by
  constructor
  · rw [perSceneFC, image_to_features, List.map_map, List.map_map]
    show imgs.map (fun img => img) = imgs
    simp
  · intro p hp hnone
    obtain ⟨pr, hpr, rfl⟩ := List.mem_map.mp hp
    obtain ⟨img, himg, rfl⟩ := List.mem_map.mp hpr
    exact filter_eq_nil_of_false _ _ hnone

/-- C10 witness: with an intersection test that rejects everything, both
scenes still get an output collection and its features list is empty. -/
theorem c10_witness :
    ((perSceneFC (fun _ _ : ℤ => false) extentsEx jsEx [1, 2]).map Prod.fst =
      [1, 2]) ∧
    (((1:ℤ), (⟨"FeatureCollection", "crs84", []⟩ :
        FeatureCollection ℤ)).2.features = []) := by
  have h := c10_file_per_scene (fun _ _ : ℤ => false) extentsEx jsEx [1, 2]
  exact ⟨h.1, h.2 ((1:ℤ), ⟨"FeatureCollection", "crs84", []⟩) (by decide)
    (by decide)⟩

/-- An axis-aligned interval intersection test on integer intervals, used to
exhibit a configuration with no intersecting scene. -/
def rectIntersects : ℤ × ℤ → ℤ × ℤ → Bool :=
  fun a b => decide (a.1 ≤ b.2 ∧ b.1 ≤ a.2)

/-- C4: evaluated at a configuration where the single candidate scene's
extent [0,1] is disjoint from the region [5,6], the pipeline does not fail:
the intersecting-scene list is empty and both manifest files are still
produced, with empty content — contradicting the claim that an
EmptyIntersection error is raised and no manifests are written. -/
theorem c4_empty_manifests :
    intersecting_images rectIntersects (fun _ : String => ((0:ℤ), (1:ℤ)))
        ((5:ℤ), (6:ℤ)) ["s3://bucket/pre/img1.tif"] = [] ∧
    trainValManifests "s3://target/labels" rectIntersects
        (fun _ : String => ((0:ℤ), (1:ℤ))) ((5:ℤ), (6:ℤ)) (fun _ => 0) 100
        (4/5) ["s3://bucket/pre/img1.tif"] = ("", "") := by
  constructor
  · decide
  · rfl

end SpaceNetPrep
